import Mathlib

/-!
Verification development for the EnzyHTP cluster job orchestration core
(`enzy_htp/core/job_manager.py` and the command primitive in
`enzy_htp/core/env_manager.py`).

The Python code is shallowly embedded: the external scheduler is modelled
as a schedule function answering every `get_job_state` query (indexed by
job and by the ordinal of the polling sweep), job objects are records,
and the polling loops are fuel-indexed recursive functions that return
the orchestrator state reached after at most `fuel` sweeps.
-/

namespace EnzyHTP

/-- Canonical job state.  `ClusterInterface.get_job_state` maps every
scheduler-native string onto this closed five-element set. -/
inductive JState where
  | pend
  | run
  | complete
  | error
  | cancel
deriving DecidableEq, Repr

/-- Test used by the orchestration loops: `job.get_state()[0] not in ["pend", "run"]`. -/
def termObs (s : JState) : Bool :=
  match s with
  | .pend => false
  | .run => false
  | _ => true

/-- Test used by `wait_to_end` and `_action_end_with`:
`state in ("complete", "error", "cancel")`. -/
def isEndState (s : JState) : Bool :=
  s == .complete || s == .error || s == .cancel

/-- State of `ClusterJob.wait_to_array_end` / `wait_to_array_end_plus`:
the mutable locals of the loop together with observation traces.
`active` and the first components of `finished` hold job indices into the
input job list; `finished` also keeps the terminal state observed when the
job was moved (the job's `last_state`).  `nextIdx` is the loop counter `i`
(number of jobs drawn from the submission queue so far), `subTrace` the
sequence of `submit()` calls issued by the loop, `activeSnaps` the active
list as it stands right after each sweep's top-up phase, and `pollTrace`
the sequence of `get_state()` queries of each sweep. -/
structure ArrSt where
  active : List Nat
  finished : List (Nat × JState)
  nextIdx : Nat
  subTrace : List Nat
  activeSnaps : List (List Nat)
  pollTrace : List (List Nat)
deriving DecidableEq, Repr

/-- Initial loop state: `current_active_job = []`, `finished_job = []`, `i = 0`. -/
def initSt : ArrSt :=
  ⟨[], [], 0, [], [], []⟩

/-- Top-up phase of one sweep
(`while len(current_active_job) < array_size and i < len(jobs): submit; append; i += 1`),
written with an explicit step counter; `queue.length` steps always suffice
because `nextIdx` grows past `queue.length`. -/
def topUpAux (cap : Nat) (queue : List Nat) : Nat → ArrSt → ArrSt
  | 0, st => st
  | k + 1, st =>
    if h : st.active.length < cap ∧ st.nextIdx < queue.length then
      topUpAux cap queue k
        { st with
          active := st.active ++ [queue.get ⟨st.nextIdx, h.2⟩],
          nextIdx := st.nextIdx + 1,
          subTrace := st.subTrace ++ [queue.get ⟨st.nextIdx, h.2⟩] }
    else st

/-- Top-up phase of one sweep of the 1-D array loops. -/
def topUp (cap : Nat) (queue : List Nat) (st : ArrSt) : ArrSt :=
  topUpAux cap queue queue.length st

/-- Poll phase of one sweep
(`for j in range(len(current_active_job)-1, -1, -1): ...`): the active
list is traversed from its last element to its first, every job is
queried, and a job observed outside `pend`/`run` is appended to
`finished` (with its observed state) and deleted from the active list.
The traversal order is realized by walking `active.reverse`; surviving
jobs are re-consed so they keep their original relative order.
Returns (new active list, new finished list, query order of this sweep). -/
def pollJobs (obs : Nat → JState) :
    List Nat → List Nat → List (Nat × JState) → List Nat →
    List Nat × List (Nat × JState) × List Nat
  | [], acc, fin, tr => (acc, fin, tr)
  | x :: rest, acc, fin, tr =>
    if termObs (obs x) then
      pollJobs obs rest acc (fin ++ [(x, obs x)]) (tr ++ [x])
    else
      pollJobs obs rest (x :: acc) fin (tr ++ [x])

/-- One sweep of `wait_to_array_end` / `wait_to_array_end_plus`:
top up the active list, then poll every active job (in reverse index
order).  `obs j` is the canonical state the cluster reports for job `j`
during this sweep. -/
def sweepArr (obs : Nat → JState) (cap : Nat) (queue : List Nat) (st : ArrSt) : ArrSt :=
  let st1 := topUp cap queue st
  let r := pollJobs obs st1.active.reverse [] st1.finished []
  { st1 with
    active := r.1,
    finished := r.2.1,
    activeSnaps := st1.activeSnaps ++ [st1.active],
    pollTrace := st1.pollTrace ++ [r.2.2] }

/-- Main loop (`while len(finished_job) < total_job_num`), run for at most
`fuel` sweeps; sweep number `t` selects the schedule column used for that
sweep's `get_state` queries.  The boolean records whether the loop guard
became false (i.e. the Python loop terminated) within `fuel` sweeps; the
state is the one reached either way, so every prefix of the run is
observable by choosing a smaller `fuel`. -/
def waitLoop (σ : Nat → Nat → JState) (cap : Nat) (queue : List Nat) (total : Nat) :
    Nat → Nat → ArrSt → Bool × ArrSt
  | 0, _, st => (!(st.finished.length < total), st)
  | fuel + 1, t, st =>
    if st.finished.length < total then
      waitLoop σ cap queue total fuel (t + 1) (sweepArr (fun j => σ j t) cap queue st)
    else
      (true, st)

/-- Embedding of `ClusterJob.wait_to_array_end` for `n` jobs (identified
with their indices in the input list): `array_size == 0` defaults the cap
to `len(jobs)`, then the loop runs from the empty state with submission
queue `[0, 1, ..., n-1]`. -/
def wait_to_array_end (σ : Nat → Nat → JState) (n array_size fuel : Nat) : Bool × ArrSt :=
  let cap := if array_size = 0 then n else array_size
  waitLoop σ cap (List.range n) n fuel 0 initSt

/-- Return value of the array loops:
`n_error + n_cancel`, where `n_error`/`n_cancel` filter the finished list
on the recorded `last_state`. -/
def arrayReturn (st : ArrSt) : List (Nat × JState) :=
  st.finished.filter (fun p => p.2 == JState.error) ++
    st.finished.filter (fun p => p.2 == JState.cancel)

/-- Classification test of `wait_to_array_end_plus`:
`job.is_submitted() and (job.get_state()[0] in ["pend", "run"])`,
evaluated once before the first sweep (schedule column 0). -/
def plusSeeded (σ : Nat → Nat → JState) (presub : Nat → Bool) (j : Nat) : Bool :=
  presub j && (σ j 0 == JState.pend || σ j 0 == JState.run)

/-- Embedding of `ClusterJob.wait_to_array_end_plus`: jobs already
submitted and observed `pend`/`run` are seeded into the active list, the
remaining jobs (in input order) form the submission queue; sweeps then
use schedule columns 1, 2, ... -/
def wait_to_array_end_plus (σ : Nat → Nat → JState) (presub : Nat → Bool)
    (n array_size fuel : Nat) : Bool × ArrSt :=
  let cap := if array_size = 0 then n else array_size
  let seeded := (List.range n).filter (plusSeeded σ presub)
  let queue := (List.range n).filter (fun j => !plusSeeded σ presub j)
  waitLoop σ cap queue n fuel 1 { initSt with active := seeded }

/-- Embedding of `ClusterJob._action_end_with`: raises `TypeError` unless
the recorded general state is one of `complete`, `error`, `cancel`;
otherwise it only logs (no further effect). -/
def actionEndWith (s : JState) : Except Unit Unit :=
  if isEndState s then Except.ok () else Except.error ()

/-- Embedding of `ClusterJob.wait_to_end`: query the state each period;
return (performing `_action_end_with`) as soon as a query reports
`complete`, `error` or `cancel`.  The result records the index of the
query on which the call returned; `none` means the job was still
`pend`/`run` at every query the fuel allowed. -/
def wait_to_end (σ : Nat → JState) : Nat → Nat → Option (Nat × Except Unit Unit)
  | 0, _ => none
  | fuel + 1, t =>
    if isEndState (σ t) then some (t, actionEndWith (σ t))
    else wait_to_end σ fuel (t + 1)

/-- Job record for `ClusterJob.submit`: only the field the submission
guard inspects. -/
structure JobRec where
  job_id : Option Nat
deriving DecidableEq, Repr

/-- Embedding of the guard and id assignment of `ClusterJob.submit`:
if the job already carries an id, a job observed `run`/`pend` raises;
otherwise a warning is emitted (boolean result component) and the
submission proceeds, overwriting `job_id` with the id returned by the
cluster.  A job with no id submits silently. -/
def submit (j : JobRec) (observed : JState) (newId : Nat) : Except Unit (JobRec × Bool) :=
  match j.job_id with
  | some _ =>
    if observed == JState.run || observed == JState.pend then Except.error ()
    else Except.ok ({ job_id := some newId }, true)
  | none => Except.ok ({ job_id := some newId }, false)

/-- Embedding of `ClusterJob._record_job_id_to_file`: append one line
`"<job_id> <script_path>"` to the recovery log.  Lines are modelled
already parsed as (id, path) pairs; paths are opaque values. -/
def record_job_id_to_file (log : List (Nat × Nat)) (job_id script_path : Nat) :
    List (Nat × Nat) :=
  log ++ [(job_id, script_path)]

/-- Embedding of `ClusterJob.retrive_job_id`: scan the log lines from the
last to the first and adopt the id of the first line whose path resolves
(via `abspath`) to the same absolute path as the job's own script path;
when no line matches, `self.job_id` keeps its previous value. -/
def retrive_job_id (abspath : Nat → Nat) (log : List (Nat × Nat))
    (self_path : Nat) (old_id : Option Nat) : Option Nat :=
  match log.reverse.find? (fun e => abspath e.2 == abspath self_path) with
  | some e => some e.1
  | none => old_id

/-- Embedding of the tail of `ClusterJob.submit`: the id bookkeeping of a
submission together with its recovery-log side effect.  The log line is
only appended when `get_eh_logging_level() < logging.CRITICAL` (the
logging level is abstracted into the boolean `belowCritical`; the logger
module itself is not part of this source tree). -/
def submit_with_log (j : JobRec) (observed : JState) (newId script_path : Nat)
    (log : List (Nat × Nat)) (belowCritical : Bool) :
    Except Unit (JobRec × List (Nat × Nat)) :=
  match submit j observed newId with
  | Except.error e => Except.error e
  | Except.ok (j', _) =>
    Except.ok (j', if belowCritical then record_job_id_to_file log newId script_path else log)

/-- Embedding of the retry loop of `EnvironmentManager.run_command`
(`for i in range(try_time): try ... except SubprocessError`): `f i` is
the outcome of the `i`-th attempt, `i` counts attempts already made,
`rem` the remaining iterations of the `range`, and `lastE` the binding of
`this_error`.  The second result component is the number of attempts
performed; `Except.error none` models the `raise this_error` reached with
`this_error` never bound (`try_time = 0`). -/
def runCmdAux (f : Nat → Except Nat Nat) :
    Nat → Nat → Option Nat → Except (Option Nat) Nat × Nat
  | 0, i, lastE => (Except.error lastE, i)
  | rem + 1, i, _ =>
    match f i with
    | Except.ok v => (Except.ok v, i + 1)
    | Except.error e => runCmdAux f rem (i + 1) (some e)

/-- Embedding of `EnvironmentManager.run_command` restricted to its retry
behaviour: run the attempts `f 0, f 1, ...` up to `try_time` times,
returning at the first success and raising the last captured error after
the final failing attempt. -/
def run_command (f : Nat → Except Nat Nat) (try_time : Nat) : Except (Option Nat) Nat × Nat :=
  runCmdAux f try_time 0 none

/-- Line separator used by the script compiler (`os.linesep`; the source
targets Linux clusters). -/
def linesep : String := "\n"

/-- Embedding of `ClusterJob._get_command_str` for a command list:
`os.linesep.join(cmd) + os.linesep`. -/
def getCommandStrList (cmd : List String) : String :=
  String.intercalate linesep cmd ++ linesep

/-- Embedding of the dict overload of `ClusterJob._get_env_str`: accept
the mapping only when its key list is exactly `["head", "tail"]` or
`["tail", "head"]`, in which case a deep copy is taken and a line
separator is appended to each value; any other key list raises
`KeyError`.  Mappings are modelled as ordered association lists (Python
dicts preserve insertion order). -/
def getEnvStrDict (env : List (String × String)) : Except Unit (List (String × String)) :=
  if env.map Prod.fst = ["head", "tail"] ∨ env.map Prod.fst = ["tail", "head"] then
    Except.ok (env.map (fun p => (p.1, p.2 ++ linesep)))
  else
    Except.error ()

/-- Lookup in the environment mapping (`env_str["head"]`, `env_str["tail"]`);
`config_job` only reaches these lookups after `_get_env_str` has checked
that exactly these keys are present. -/
def envLookup (env : List (String × String)) (key : String) : String :=
  match env.find? (fun p => p.1 == key) with
  | some p => p.2
  | none => ""

/-- Embedding of the dict overload of `ClusterJob._get_sub_script_str`:
`os.linesep.join((res_str, watermark, env_str["head"], command_str, env_str["tail"]))`. -/
def getSubScriptStrDict (command_str : String) (env : List (String × String))
    (res_str watermark : String) : String :=
  String.intercalate linesep [res_str, watermark, envLookup env "head", command_str,
    envLookup env "tail"]

/-- State of one track of `ClusterJob.wait_to_2d_array_end`: the entry of
`current_active_job` and of `finished_job` for that track.  Jobs are
identified by their index inside their track; the track lengths
(`len(job_list_1d)` for each sublist of `jobs`) are carried separately as
a `List Nat` zipped against the track states, mirroring the `zip` calls
of the source. -/
abbrev Track2 := List Nat × List Nat

/-- Modelled from the spec: `num_ele_2d` (imported from `core.general`,
absent from this source snapshot) applied to `current_active_job` — the
total number of jobs in a 2-D list, i.e. the sum of the sublist lengths
("loop until the count of finished jobs equals total job count"). -/
def activeCount (trs : List Track2) : Nat :=
  (trs.map (fun p => p.1.length)).sum

/-- Modelled from the spec: `num_ele_2d` applied to `finished_job`. -/
def finishedCount (trs : List Track2) : Nat :=
  (trs.map (fun p => p.2.length)).sum

/-- Step 0 of a 2-D sweep: `unfinished_1d_joblist_num`, the number of
tracks with `len(job_1d) > len(finished_1d)`. -/
def unfinishedCount : List Nat → List Track2 → Nat
  | l :: ls, p :: trs => (if p.2.length < l then 1 else 0) + unfinishedCount ls trs
  | _, _ => 0

/-- Steps 1.1–1.3 of a 2-D sweep: scan the tracks in input order for the
first one with an empty active slot and unfinished jobs, submit that
track's next job (`job_list_1d[len(finish_list_1d)]`) and append it to
the track's active list; `none` when no idle unfinished track exists (in
which case the source's `while` would spin without progress).  Returns
the updated tracks and the (track, job) submitted. -/
def submitFirstIdle : List Nat → List Track2 → Option (List Track2 × Nat × Nat)
  | l :: ls, (act, fin) :: trs =>
    if act.length = 0 && decide (fin.length < l) then
      some ((act ++ [fin.length], fin) :: trs, 0, fin.length)
    else
      (submitFirstIdle ls trs).map (fun r => ((act, fin) :: r.1, r.2.1 + 1, r.2.2))
  | _, _ => none

/-- State of `ClusterJob.wait_to_2d_array_end`: the per-track active and
finished lists, the trace of `submit()` calls (as (track, job) pairs) and
the per-sweep trace of `get_state()` queries. -/
structure Arr2St where
  tracks : List Track2
  subTrace : List (Nat × Nat)
  pollTrace : List (List (Nat × Nat))
deriving DecidableEq, Repr

/-- Step 1 of a 2-D sweep
(`while num_ele_2d(current_active_job) < min(array_size, unfinished_1d_joblist_num)`),
with an explicit iteration counter; each iteration submits one job via
`submitFirstIdle`.  `none` models the source looping forever because no
idle track can be found (never reached from well-formed states, as proved
below). -/
def topUp2 (cap u : Nat) (L : List Nat) : Nat → Arr2St → Option Arr2St
  | 0, st => if activeCount st.tracks < min cap u then none else some st
  | k + 1, st =>
    if activeCount st.tracks < min cap u then
      match submitFirstIdle L st.tracks with
      | none => none
      | some (trs, tr, j) =>
        topUp2 cap u L k { st with tracks := trs, subTrace := st.subTrace ++ [(tr, j)] }
    else some st

/-- Step 2 of a 2-D sweep: visit the tracks in input order; a track with
more than one active job raises
(`"Sequential jobs submitted at the same time. There is a bug in the code!"`);
otherwise its single active job is queried and, if observed outside
`pend`/`run`, moved to the track's finished list.  `obs tr j` is the
state reported for job `j` of track `tr`; the second result component is
the query order of the sweep. -/
def poll2 (obs : Nat → Nat → JState) :
    Nat → List Track2 → Except Unit (List Track2 × List (Nat × Nat))
  | _, [] => Except.ok ([], [])
  | trIdx, (act, fin) :: rest =>
    match act with
    | [] => (poll2 obs (trIdx + 1) rest).map (fun r => (([], fin) :: r.1, r.2))
    | [j] =>
      (poll2 obs (trIdx + 1) rest).map (fun r =>
        if termObs (obs trIdx j) then (([], fin ++ [j]) :: r.1, (trIdx, j) :: r.2)
        else (([j], fin) :: r.1, (trIdx, j) :: r.2))
    | _ => Except.error ()

/-- Outcome of a 2-D sweep or run: a next state, the defensive exception
of step 2, or the unreachable top-up livelock. -/
inductive Sweep2Res where
  | ok (st : Arr2St)
  | raised
  | hang
deriving DecidableEq, Repr

/-- One sweep of `wait_to_2d_array_end`: count the unfinished tracks, top
up to `min(array_size, unfinished)`, then poll every track. -/
def sweep2 (σ2 : Nat → Nat → Nat → JState) (cap : Nat) (L : List Nat) (t : Nat)
    (st : Arr2St) : Sweep2Res :=
  match topUp2 cap (unfinishedCount L st.tracks) L L.length st with
  | none => Sweep2Res.hang
  | some st1 =>
    match poll2 (fun tr j => σ2 tr j t) 0 st1.tracks with
    | Except.error _ => Sweep2Res.raised
    | Except.ok r =>
      Sweep2Res.ok { st1 with tracks := r.1, pollTrace := st1.pollTrace ++ [r.2] }

/-- Main loop of `wait_to_2d_array_end`
(`while num_ele_2d(finished_job) < total_job_num`), run for at most
`fuel` sweeps; as for the 1-D loops the state after `fuel` sweeps is
returned, so all intermediate states of a run are observable. -/
def wait2dLoop (σ2 : Nat → Nat → Nat → JState) (cap : Nat) (L : List Nat) (total : Nat) :
    Nat → Nat → Arr2St → Sweep2Res
  | 0, _, st => Sweep2Res.ok st
  | fuel + 1, t, st =>
    if finishedCount st.tracks < total then
      match sweep2 σ2 cap L t st with
      | Sweep2Res.ok st' => wait2dLoop σ2 cap L total fuel (t + 1) st'
      | r => r
    else Sweep2Res.ok st

/-- Embedding of `ClusterJob.wait_to_2d_array_end` for tracks of lengths
`L` (job `j` of track `tr` is identified by the pair `(tr, j)`):
`array_size == 0` defaults the cap to the number of tracks, the total job
count is `num_ele_2d(jobs) = L.sum`, and every track starts with empty
active and finished lists. -/
def wait_to_2d_array_end (σ2 : Nat → Nat → Nat → JState) (L : List Nat)
    (array_size fuel : Nat) : Sweep2Res :=
  let cap := if array_size = 0 then L.length else array_size
  wait2dLoop σ2 cap L L.sum fuel 0 ⟨L.map (fun _ => ([], [])), [], []⟩

/-- Submissions recorded for track `tr`, in order. -/
def subFor (tr : Nat) (sub : List (Nat × Nat)) : List Nat :=
  sub.filterMap (fun q => if q.1 = tr then some q.2 else none)

/-- Boolean test that `poll2` raised. -/
def isRaise : Except Unit (List Track2 × List (Nat × Nat)) → Bool
  | Except.error _ => true
  | Except.ok _ => false

/-- Strictly increasing list of naturals (used to express that a sweep's
queries visit the tracks in input order). -/
def strictIncr : List Nat → Bool
  | [] => true
  | [_] => true
  | a :: b :: rest => decide (a < b) && strictIncr (b :: rest)

/-- Number of jobs of a track already accounted for: finished jobs plus
the (at most one) active job. -/
def trackCount (p : Track2) : Nat :=
  p.2.length + p.1.length

/-- Structural well-formedness of the per-track states against the track
lengths `L`: each finished list is the initial segment `[0, ..., m-1]` of
its track, the active slot is empty or holds exactly the next job `m`,
and the track never over-runs its length. -/
def TInv : List Nat → List Track2 → Prop
  | [], [] => True
  | l :: ls, (act, fin) :: trs =>
    (fin = List.range fin.length ∧ (act = [] ∨ act = [fin.length]) ∧
      fin.length + act.length ≤ l) ∧ TInv ls trs
  | _, _ => False

/-- Full invariant of the 2-D loop: well-formed tracks, a submission
trace that per track is exactly `[0, 1, ..., trackCount - 1]` (so job
`k+1` of a track is only ever submitted after job `k` was moved to that
track's finished list), and per-sweep query traces that visit tracks in
strictly increasing order. -/
def Inv2 (L : List Nat) (st : Arr2St) : Prop :=
  TInv L st.tracks ∧
  (∀ tr, subFor tr st.subTrace = List.range (trackCount (st.tracks.getD tr ([], [])))) ∧
  (∀ tl ∈ st.pollTrace, strictIncr (tl.map Prod.fst) = true)

/-- Compiled job produced by `ClusterJob.config_job`. -/
structure JobModel where
  sub_script_str : String
deriving DecidableEq, Repr

/-- Embedding of `ClusterJob.config_job` on the list-of-commands /
dict-environment / pre-rendered-resource-string path: compile the three
blocks and construct the job; a `KeyError` from `_get_env_str` aborts the
call before any job is constructed. -/
def config_job (commands : List String) (env : List (String × String))
    (res watermark : String) : Except Unit JobModel :=
  let command_str := getCommandStrList commands
  match getEnvStrDict env with
  | Except.error e => Except.error e
  | Except.ok env2 => Except.ok ⟨getSubScriptStrDict command_str env2 res watermark⟩

/-- Loop invariant of the 1-D array loops, for a run with concurrency cap
`cap`, submission queue `queue` and pre-seeded active jobs `seed`:
the loop counter stays within the queue, the submission trace is exactly
the prefix of the queue already drawn, the active list respects the cap,
the finished and active jobs together are a permutation of the seed plus
the drawn prefix, every sampled active list respected the cap, each
sweep's queries visited the active list in reverse, and every finished
job was observed in a terminal state. -/
def ArrInv (cap : Nat) (queue seed : List Nat) (st : ArrSt) : Prop :=
  st.nextIdx ≤ queue.length ∧
  st.subTrace = queue.take st.nextIdx ∧
  st.active.length ≤ max cap seed.length ∧
  (st.finished.map Prod.fst ++ st.active).Perm (seed ++ queue.take st.nextIdx) ∧
  (∀ a ∈ st.activeSnaps, a.length ≤ max cap seed.length) ∧
  st.pollTrace = st.activeSnaps.map List.reverse ∧
  st.finished.all (fun p => termObs p.2) = true

section ArrayLemmas

variable (cap : Nat) (queue seed : List Nat)

theorem topUpAux_frozen : ∀ (k : Nat) (st : ArrSt),
    (topUpAux cap queue k st).finished = st.finished ∧
    (topUpAux cap queue k st).activeSnaps = st.activeSnaps ∧
    (topUpAux cap queue k st).pollTrace = st.pollTrace := by
  intro k
  induction k with
  | zero => intro st; exact ⟨rfl, rfl, rfl⟩
  | succ k ih =>
    intro st
    rw [topUpAux]
    split
    · exact ih _
    · exact ⟨rfl, rfl, rfl⟩

theorem topUpAux_active_mono : ∀ (k : Nat) (st : ArrSt),
    st.active.length ≤ (topUpAux cap queue k st).active.length := by
  intro k
  induction k with
  | zero => intro st; exact Nat.le_refl _
  | succ k ih =>
    intro st
    rw [topUpAux]
    split
    · refine Nat.le_trans ?_ (ih _)
      simp
    · exact Nat.le_refl _

theorem topUpAux_inv : ∀ (k : Nat) (st : ArrSt),
    ArrInv cap queue seed st → ArrInv cap queue seed (topUpAux cap queue k st) := by
  intro k
  induction k with
  | zero => intro st h; exact h
  | succ k ih =>
    intro st h
    obtain ⟨h1, h2, h3, h4, h5, h6, h7⟩ := h
    rw [topUpAux]
    split
    · rename_i hg
      refine ih _ ⟨Nat.succ_le_of_lt hg.2, ?_, ?_, ?_, h5, h6, h7⟩
      · simp only [h2]
        rw [List.get_eq_getElem, ← List.concat_eq_append, List.take_concat_get]
      · simpa using Nat.le_trans (Nat.succ_le_of_lt hg.1) (Nat.le_max_left _ _)
      · simp only []
        have heq : st.finished.map Prod.fst ++ (st.active ++ [queue.get ⟨st.nextIdx, hg.2⟩]) =
            (st.finished.map Prod.fst ++ st.active) ++ [queue.get ⟨st.nextIdx, hg.2⟩] := by
          rw [List.append_assoc]
        rw [heq]
        have h4' := h4.append_right [queue.get ⟨st.nextIdx, hg.2⟩]
        refine h4'.trans ?_
        have : (queue.take st.nextIdx ++ [queue.get ⟨st.nextIdx, hg.2⟩]) =
            queue.take (st.nextIdx + 1) := by
          rw [List.get_eq_getElem, ← List.concat_eq_append, List.take_concat_get]
        rw [List.append_assoc, this]
    · exact ⟨h1, h2, h3, h4, h5, h6, h7⟩

theorem topUpAux_progress (k : Nat) (st : ArrSt) (hk : 0 < k) (hcap : 0 < cap)
    (hidx : st.nextIdx < queue.length) (hact : st.active = []) :
    1 ≤ (topUpAux cap queue k st).active.length := by
  cases k with
  | zero => exact absurd hk (Nat.lt_irrefl 0)
  | succ k =>
    rw [topUpAux]
    split
    · rename_i hg
      refine Nat.le_trans ?_ (topUpAux_active_mono cap queue k _)
      simp [hact]
    · rename_i hg
      exact absurd ⟨by simpa [hact] using hcap, hidx⟩ hg

theorem pollJobs_spec (obs : Nat → JState) :
    ∀ (l acc : List Nat) (fin : List (Nat × JState)) (tr : List Nat),
      pollJobs obs l acc fin tr =
        ((l.filter (fun x => !termObs (obs x))).reverse ++ acc,
         fin ++ (l.filter (fun x => termObs (obs x))).map (fun x => (x, obs x)),
         tr ++ l) := by
  intro l
  induction l with
  | nil => intro acc fin tr; simp [pollJobs]
  | cons x rest ih =>
    intro acc fin tr
    by_cases hx : termObs (obs x)
    · simp [pollJobs, hx, ih, List.filter_cons]
    · simp only [pollJobs, hx, if_neg, Bool.false_eq_true, not_false_eq_true, ih,
        List.filter_cons]
      simp [hx]

theorem sweepArr_fields (obs : Nat → JState) (st : ArrSt) :
    sweepArr obs cap queue st =
      { active := (topUp cap queue st).active.filter (fun x => !termObs (obs x)),
        finished := (topUp cap queue st).finished ++
          ((topUp cap queue st).active.reverse.filter
            (fun x => termObs (obs x))).map (fun x => (x, obs x)),
        nextIdx := (topUp cap queue st).nextIdx,
        subTrace := (topUp cap queue st).subTrace,
        activeSnaps := (topUp cap queue st).activeSnaps ++ [(topUp cap queue st).active],
        pollTrace := (topUp cap queue st).pollTrace ++
          [(topUp cap queue st).active.reverse] } := by
  unfold sweepArr
  simp only [pollJobs_spec]
  simp [List.filter_reverse]

theorem sweepArr_inv (obs : Nat → JState) (st : ArrSt)
    (h : ArrInv cap queue seed st) :
    ArrInv cap queue seed (sweepArr obs cap queue st) := by
  have h1 := topUpAux_inv cap queue seed queue.length st h
  have hTU : topUpAux cap queue queue.length st = topUp cap queue st := rfl
  rw [hTU] at h1
  obtain ⟨i1, i2, i3, i4, i5, i6, i7⟩ := h1
  rw [sweepArr_fields]
  refine ⟨i1, i2, ?_, ?_, ?_, ?_, ?_⟩
  · exact Nat.le_trans (List.length_filter_le _ _) i3
  · have hmap : ∀ (l : List Nat), (l.map (fun x => (x, obs x))).map Prod.fst = l := by
      intro l
      induction l with
      | nil => rfl
      | cons a l ih => simp only [List.map_cons]; rw [ih]
    have hperm : (((topUp cap queue st).active.reverse.filter (fun x => termObs (obs x))) ++
        ((topUp cap queue st).active.filter (fun x => !termObs (obs x)))).Perm
        (topUp cap queue st).active := by
      rw [List.filter_reverse]
      refine List.Perm.trans
        (List.Perm.append (((topUp cap queue st).active.filter _).reverse_perm)
          (List.Perm.refl _)) ?_
      exact List.filter_append_perm (fun x => termObs (obs x)) (topUp cap queue st).active
    refine List.Perm.trans ?_ i4
    rw [List.map_append, hmap, List.append_assoc]
    exact hperm.append_left _
  · intro a ha
    rcases List.mem_append.1 ha with hmem | hmem
    · exact i5 a hmem
    · rcases List.mem_singleton.1 hmem with rfl
      exact i3
  · simp [i6]
  · rw [List.all_append]
    rw [Bool.and_eq_true]
    refine ⟨i7, ?_⟩
    rw [List.all_eq_true]
    intro p hp
    rcases List.mem_map.1 hp with ⟨x, hx, rfl⟩
    simpa using List.of_mem_filter hx

theorem sweepArr_finished_extends (obs : Nat → JState) (st : ArrSt) :
    (sweepArr obs cap queue st).finished =
      st.finished ++ ((topUp cap queue st).active.reverse.filter
        (fun x => termObs (obs x))).map (fun x => (x, obs x)) := by
  rw [sweepArr_fields]
  have hTU : topUpAux cap queue queue.length st = topUp cap queue st := rfl
  have := (topUpAux_frozen cap queue queue.length st).1
  rw [hTU] at this
  rw [this]

theorem ArrInv_active_mem (st : ArrSt) (h : ArrInv cap queue seed st) :
    ∀ j ∈ st.active, j ∈ seed ++ queue := by
  intro j hj
  have hj2 : j ∈ st.finished.map Prod.fst ++ st.active :=
    List.mem_append.2 (Or.inr hj)
  have hj3 := h.2.2.2.1.mem_iff.1 hj2
  rcases List.mem_append.1 hj3 with hmem | hmem
  · exact List.mem_append.2 (Or.inl hmem)
  · exact List.mem_append.2 (Or.inr (List.take_subset _ _ hmem))

theorem ArrInv_length_count (st : ArrSt) (h : ArrInv cap queue seed st) :
    st.finished.length + st.active.length = seed.length + st.nextIdx := by
  have := h.2.2.2.1.length_eq
  simpa [List.length_take, Nat.min_eq_left h.1] using this

theorem sweepArr_progress (obs : Nat → JState) (st : ArrSt)
    (h : ArrInv cap queue seed st) (hcap : 0 < cap)
    (hterm : ∀ j ∈ seed ++ queue, termObs (obs j) = true)
    (hlt : st.finished.length < seed.length + queue.length) :
    st.finished.length + 1 ≤ (sweepArr obs cap queue st).finished.length := by
  have hinv1 : ArrInv cap queue seed (topUp cap queue st) :=
    topUpAux_inv cap queue seed queue.length st h
  have hfilter : (topUp cap queue st).active.reverse.filter (fun x => termObs (obs x)) =
      (topUp cap queue st).active.reverse := by
    rw [List.filter_eq_self]
    intro a ha
    exact hterm a (ArrInv_active_mem cap queue seed _ hinv1 a (List.mem_reverse.1 ha))
  have hlen : 1 ≤ (topUp cap queue st).active.length := by
    rcases List.eq_nil_or_concat st.active with hnil | ⟨l, x, hx⟩
    · have hidx : st.nextIdx < queue.length := by
        have hcount := ArrInv_length_count cap queue seed st h
        rw [hnil] at hcount
        simp only [List.length_nil, Nat.add_zero] at hcount
        by_contra hge
        have : st.nextIdx = queue.length := Nat.le_antisymm h.1 (Nat.le_of_not_lt hge)
        rw [this] at hcount
        omega
      have hqpos : 0 < queue.length := Nat.lt_of_le_of_lt (Nat.zero_le _) hidx
      exact topUpAux_progress cap queue queue.length st hqpos hcap hidx hnil
    · refine Nat.le_trans ?_ (topUpAux_active_mono cap queue queue.length st)
      rw [hx]
      simp
  rw [sweepArr_finished_extends, hfilter]
  simp only [List.length_append, List.length_map, List.length_reverse]
  omega

theorem waitLoop_inv (σ : Nat → Nat → JState) (total : Nat) :
    ∀ (fuel t : Nat) (st : ArrSt), ArrInv cap queue seed st →
      ArrInv cap queue seed (waitLoop σ cap queue total fuel t st).2 := by
  intro fuel
  induction fuel with
  | zero => intro t st h; exact h
  | succ fuel ih =>
    intro t st h
    rw [waitLoop]
    split
    · exact ih _ _ (sweepArr_inv cap queue seed _ st h)
    · exact h

theorem waitLoop_terminates (σ : Nat → Nat → JState) (T : Nat) (hcap : 0 < cap)
    (hterm : ∀ j ∈ seed ++ queue, ∀ t, T ≤ t → termObs (σ j t) = true) :
    ∀ (fuel t : Nat) (st : ArrSt), ArrInv cap queue seed st →
      (T - t) + (seed.length + queue.length - st.finished.length) ≤ fuel →
      ∃ st', waitLoop σ cap queue (seed.length + queue.length) fuel t st = (true, st') ∧
        ArrInv cap queue seed st' ∧
        st'.finished.length = seed.length + queue.length := by
  intro fuel
  induction fuel with
  | zero =>
    intro t st h hfuel
    have hge : seed.length + queue.length ≤ st.finished.length := by omega
    have hle : st.finished.length ≤ seed.length + queue.length := by
      have := ArrInv_length_count cap queue seed st h
      have := h.1
      omega
    refine ⟨st, ?_, h, Nat.le_antisymm hle hge⟩
    rw [waitLoop]
    simp [Nat.not_lt.2 hge]
  | succ fuel ih =>
    intro t st h hfuel
    rw [waitLoop]
    by_cases hguard : st.finished.length < seed.length + queue.length
    · rw [if_pos hguard]
      set st' := sweepArr (fun j => σ j t) cap queue st with hst'
      have hinv' : ArrInv cap queue seed st' := sweepArr_inv cap queue seed _ st h
      have hmono : st.finished.length ≤ st'.finished.length := by
        rw [hst', sweepArr_finished_extends]
        simp
      rcases Nat.lt_or_ge t T with hT | hT
      · refine ih (t + 1) st' hinv' ?_
        omega
      · have hprog : st.finished.length + 1 ≤ st'.finished.length :=
          sweepArr_progress cap queue seed _ st h hcap
            (fun j hj => hterm j hj t hT) hguard
        refine ih (t + 1) st' hinv' ?_
        omega
    · rw [if_neg hguard]
      have hle : st.finished.length ≤ seed.length + queue.length := by
        have := ArrInv_length_count cap queue seed st h
        have := h.1
        omega
      exact ⟨st, rfl, h, Nat.le_antisymm hle (Nat.le_of_not_lt hguard)⟩

theorem ArrInv_init : ArrInv cap queue seed { initSt with active := seed } := by
  refine ⟨Nat.zero_le _, rfl, Nat.le_max_right _ _, ?_, ?_, rfl, rfl⟩
  · simp [initSt]
  · intro a ha
    simp [initSt] at ha

end ArrayLemmas

/-- C1: for `wait_to_array_end` with a positive cap `k`, the active set
never holds more than `k` jobs at any point of the loop (its size peaks
right after each sweep's top-up, and `activeSnaps` samples exactly those
peaks), each job is submitted at most once and in input-list order (the
submission trace is an initial segment `[0, 1, ...]` of the job list),
and — whenever every job's reported state is terminal from some sweep `T`
on and the loop is given at least `T + n` sweeps — the loop terminates
with every job in the finished set.  When `array_size = 0` the cap used
is `len(jobs) = n`. -/
theorem wait_to_array_end_bounded_and_complete
    (σ : Nat → Nat → JState) (n k T fuel : Nat)
    (hk : 0 < k) (hfuel : T + n ≤ fuel)
    (hterm : ∀ j, j < n → ∀ t, T ≤ t → termObs (σ j t) = true) :
    (∃ st, wait_to_array_end σ n k fuel = (true, st) ∧
      st.activeSnaps.all (fun a => decide (a.length ≤ k)) = true ∧
      st.subTrace = List.range st.nextIdx ∧
      st.nextIdx ≤ n ∧
      (List.range n).all (fun j => st.finished.any (fun p => p.1 == j)) = true) ∧
    wait_to_array_end σ n 0 fuel = waitLoop σ n (List.range n) n fuel 0 initSt := by
  constructor
  · have hinit : ArrInv k (List.range n) [] initSt := by
      have := ArrInv_init k (List.range n) ([] : List Nat)
      simpa using this
    have hterm' : ∀ j ∈ ([] : List Nat) ++ List.range n, ∀ t, T ≤ t →
        termObs (σ j t) = true := by
      intro j hj t ht
      exact hterm j (by simpa using hj) t ht
    have hfuel' : (T - 0) + (([] : List Nat).length + (List.range n).length -
        initSt.finished.length) ≤ fuel := by
      simpa [initSt] using hfuel
    obtain ⟨st, hrun, hinv, hlen⟩ :=
      waitLoop_terminates k (List.range n) [] σ T hk hterm' fuel 0 initSt hinit hfuel'
    have htot : ([] : List Nat).length + (List.range n).length = n := by simp
    rw [htot] at hrun hlen
    have hcount := ArrInv_length_count k (List.range n) [] st hinv
    have hidx : st.nextIdx ≤ n := by
      have := hinv.1
      simpa using this
    have hact : st.active = [] := by
      have : st.active.length = 0 := by
        simp only [List.length_nil, Nat.zero_add] at hcount
        omega
      exact List.eq_nil_of_length_eq_zero this
    have hidxn : st.nextIdx = n := by
      simp only [List.length_nil, Nat.zero_add] at hcount
      omega
    refine ⟨st, ?_, ?_, ?_, hidx, ?_⟩
    · unfold wait_to_array_end
      rw [if_neg (Nat.ne_of_gt hk)]
      exact hrun
    · rw [List.all_eq_true]
      intro a ha
      have := hinv.2.2.2.2.1 a ha
      simp only [List.length_nil, Nat.max_zero] at this
      exact decide_eq_true this
    · have := hinv.2.1
      rw [List.take_range] at this
      rw [this, Nat.min_eq_left hidx]
    · rw [List.all_eq_true]
      intro j hj
      have hperm := hinv.2.2.2.1
      rw [hact, hidxn, List.take_range, Nat.min_self] at hperm
      have hjmem : j ∈ st.finished.map Prod.fst ++ ([] : List Nat) := by
        rw [hperm.mem_iff]
        simpa using hj
      rw [List.append_nil, List.mem_map] at hjmem
      obtain ⟨p, hp, hpj⟩ := hjmem
      rw [List.any_eq_true]
      exact ⟨p, hp, by simp [hpj]⟩
  · rfl

/-- Witness for C1 at a concrete input: three jobs that always report
`complete`, cap 2, fuel 3. -/
theorem wait_to_array_end_bounded_and_complete_witness :
    (∃ st, wait_to_array_end (fun _ _ => JState.complete) 3 2 3 = (true, st) ∧
      st.activeSnaps.all (fun a => decide (a.length ≤ 2)) = true ∧
      st.subTrace = List.range st.nextIdx ∧
      st.nextIdx ≤ 3 ∧
      (List.range 3).all (fun j => st.finished.any (fun p => p.1 == j)) = true) ∧
    wait_to_array_end (fun _ _ => JState.complete) 3 0 3 =
      waitLoop (fun _ _ => JState.complete) 3 (List.range 3) 3 3 0 initSt :=
  wait_to_array_end_bounded_and_complete (fun _ _ => JState.complete) 3 2 0 3
    (by decide) (by decide) (fun _ _ _ _ => rfl)

/-- C4: in `wait_to_array_end_plus`, the jobs observed already submitted
and `pend`/`run` before the first sweep are exactly the initial active
set (the state after zero sweeps), and the submission trace of any run is
a prefix of the inactive-classified jobs in input order — in particular
`submit()` is never called on a seeded job. -/
theorem wait_to_array_end_plus_no_double_submit
    (σ : Nat → Nat → JState) (presub : Nat → Bool) (n array_size fuel : Nat) :
    (wait_to_array_end_plus σ presub n array_size 0).2.active =
      (List.range n).filter (plusSeeded σ presub) ∧
    (wait_to_array_end_plus σ presub n array_size fuel).2.subTrace =
      ((List.range n).filter (fun j => !plusSeeded σ presub j)).take
        (wait_to_array_end_plus σ presub n array_size fuel).2.nextIdx ∧
    (wait_to_array_end_plus σ presub n array_size fuel).2.subTrace.all
      (fun j => !plusSeeded σ presub j) = true := by
  have hinv : ArrInv (if array_size = 0 then n else array_size)
      ((List.range n).filter (fun j => !plusSeeded σ presub j))
      ((List.range n).filter (plusSeeded σ presub))
      (wait_to_array_end_plus σ presub n array_size fuel).2 := by
    unfold wait_to_array_end_plus
    exact waitLoop_inv _ _ _ σ n fuel 1 _ (ArrInv_init _ _ _)
  refine ⟨rfl, hinv.2.1, ?_⟩
  rw [List.all_eq_true]
  intro j hj
  rw [hinv.2.1] at hj
  have hj2 : j ∈ (List.range n).filter (fun j => !plusSeeded σ presub j) :=
    List.take_subset _ _ hj
  simpa using List.of_mem_filter hj2

/-- Counterexample for C6: with job 0 reporting `error` and job 1
reporting `cancel`, the reverse-order poll appends `(1, cancel)` to the
finished list before `(0, error)`, but the returned list is
`n_error + n_cancel = [(0, error), (1, cancel)]` — not the order-preserving
sub-list of the finished list with state in error/cancel. -/
theorem wait_to_array_end_return_order_counterexample :
    arrayReturn
        (wait_to_array_end (fun j _ => if j = 0 then JState.error else JState.cancel)
          2 2 2).2 = [(0, JState.error), (1, JState.cancel)] ∧
    (wait_to_array_end (fun j _ => if j = 0 then JState.error else JState.cancel)
        2 2 2).2.finished = [(1, JState.cancel), (0, JState.error)] ∧
    arrayReturn
        (wait_to_array_end (fun j _ => if j = 0 then JState.error else JState.cancel)
          2 2 2).2 ≠
      (wait_to_array_end (fun j _ => if j = 0 then JState.error else JState.cancel)
          2 2 2).2.finished.filter
        (fun p => p.2 == JState.error || p.2 == JState.cancel) := by
  decide

theorem filter_error_cancel_perm (l : List (Nat × JState)) :
    (l.filter (fun p => p.2 == JState.error || p.2 == JState.cancel)).Perm
      (l.filter (fun p => p.2 == JState.error) ++
        l.filter (fun p => p.2 == JState.cancel)) := by
  induction l with
  | nil => simp
  | cons a l ih =>
    rcases a with ⟨x, s⟩
    cases s with
    | error =>
      have e1 : (((x, JState.error) :: l).filter
          (fun p => p.2 == JState.error || p.2 == JState.cancel)) =
          (x, JState.error) :: l.filter
            (fun p => p.2 == JState.error || p.2 == JState.cancel) := by
        simp [List.filter_cons]
      have e2 : (((x, JState.error) :: l).filter (fun p => p.2 == JState.error)) =
          (x, JState.error) :: l.filter (fun p => p.2 == JState.error) := by
        simp [List.filter_cons]
      have e3 : (((x, JState.error) :: l).filter (fun p => p.2 == JState.cancel)) =
          l.filter (fun p => p.2 == JState.cancel) := by
        simp [List.filter_cons]
      rw [e1, e2, e3, List.cons_append]
      exact ih.cons _
    | cancel =>
      have e1 : (((x, JState.cancel) :: l).filter
          (fun p => p.2 == JState.error || p.2 == JState.cancel)) =
          (x, JState.cancel) :: l.filter
            (fun p => p.2 == JState.error || p.2 == JState.cancel) := by
        simp [List.filter_cons]
      have e2 : (((x, JState.cancel) :: l).filter (fun p => p.2 == JState.error)) =
          l.filter (fun p => p.2 == JState.error) := by
        simp [List.filter_cons]
      have e3 : (((x, JState.cancel) :: l).filter (fun p => p.2 == JState.cancel)) =
          (x, JState.cancel) :: l.filter (fun p => p.2 == JState.cancel) := by
        simp [List.filter_cons]
      rw [e1, e2, e3]
      exact List.Perm.trans (ih.cons _) List.perm_middle.symm
    | pend =>
      simpa [List.filter_cons] using ih
    | run =>
      simpa [List.filter_cons] using ih
    | complete =>
      simpa [List.filter_cons] using ih

/-- C6 (amended): when `wait_to_array_end` terminates it returns the
finished jobs observed `error` (in finished order) followed by those
observed `cancel` (in finished order) — a permutation of the sub-list of
finished jobs whose last observed state is `error` or `cancel`, with
`complete` jobs excluded; every finished job carries a terminal observed
state, and the failures are returned as a value (this code path raises
nothing). -/
theorem wait_to_array_end_return_failed_jobs
    (σ : Nat → Nat → JState) (n array_size fuel : Nat) :
    arrayReturn (wait_to_array_end σ n array_size fuel).2 =
      (wait_to_array_end σ n array_size fuel).2.finished.filter
          (fun p => p.2 == JState.error) ++
        (wait_to_array_end σ n array_size fuel).2.finished.filter
          (fun p => p.2 == JState.cancel) ∧
    ((wait_to_array_end σ n array_size fuel).2.finished.filter
        (fun p => p.2 == JState.error || p.2 == JState.cancel)).Perm
      (arrayReturn (wait_to_array_end σ n array_size fuel).2) ∧
    (arrayReturn (wait_to_array_end σ n array_size fuel).2).all
      (fun p => !(p.2 == JState.complete)) = true ∧
    (wait_to_array_end σ n array_size fuel).2.finished.all
      (fun p => termObs p.2) = true := by
  have hinv : ArrInv (if array_size = 0 then n else array_size) (List.range n) []
      (wait_to_array_end σ n array_size fuel).2 := by
    unfold wait_to_array_end
    refine waitLoop_inv _ _ _ σ n fuel 0 _ ?_
    have := ArrInv_init (if array_size = 0 then n else array_size) (List.range n)
      ([] : List Nat)
    simpa using this
  refine ⟨rfl, filter_error_cancel_perm _, ?_, hinv.2.2.2.2.2.2⟩
  unfold arrayReturn
  rw [List.all_append, Bool.and_eq_true]
  constructor
  · rw [List.all_eq_true]
    intro p hp
    have := List.of_mem_filter hp
    have hpe : p.2 = JState.error := by simpa using this
    simp [hpe]
  · rw [List.all_eq_true]
    intro p hp
    have := List.of_mem_filter hp
    have hpc : p.2 = JState.cancel := by simpa using this
    simp [hpc]

/-- C3: a `ClusterJob` that already carries a `job_id` cannot be
resubmitted while observed `pend`/`run` (the call raises and the job is
untouched), while a terminal observation lets the submission proceed
with the warning emitted and `job_id` overwritten by the new id, so the
old id is no longer held. -/
theorem submit_guard_spec (old newId : Nat) (obs : JState) :
    ((obs = JState.pend ∨ obs = JState.run) →
      submit ⟨some old⟩ obs newId = Except.error ()) ∧
    ((obs = JState.complete ∨ obs = JState.error ∨ obs = JState.cancel) →
      submit ⟨some old⟩ obs newId = Except.ok (⟨some newId⟩, true)) := by
  constructor
  · rintro (rfl | rfl) <;> rfl
  · rintro (rfl | rfl | rfl) <;> rfl

/-- Witness for C3: submitting with id 7 while observed `pend` raises;
submitting while observed `complete` succeeds with the new id 9 and the
warning flag set. -/
theorem submit_guard_spec_witness :
    submit ⟨some 7⟩ JState.pend 9 = Except.error () ∧
    submit ⟨some 7⟩ JState.complete 9 = Except.ok (⟨some 9⟩, true) :=
  ⟨(submit_guard_spec 7 9 JState.pend).1 (Or.inl rfl),
   (submit_guard_spec 7 9 JState.complete).2 (Or.inl rfl)⟩

theorem actionEndWith_ok (s : JState) (h : isEndState s = true) :
    actionEndWith s = Except.ok () := by
  unfold actionEndWith
  rw [if_pos h]

theorem wait_to_end_finds (σ : Nat → JState) :
    ∀ (fuel t0 T : Nat), t0 ≤ T → T < t0 + fuel → isEndState (σ T) = true →
      ∃ t, t0 ≤ t ∧ t ≤ T ∧
        wait_to_end σ fuel t0 = some (t, Except.ok ()) ∧
        isEndState (σ t) = true ∧
        ∀ u, t0 ≤ u → u < t → isEndState (σ u) = false := by
  intro fuel
  induction fuel with
  | zero => intro t0 T h1 h2 h3; omega
  | succ fuel ih =>
    intro t0 T h1 h2 h3
    by_cases h0 : isEndState (σ t0) = true
    · refine ⟨t0, Nat.le_refl _, h1, ?_, h0, ?_⟩
      · rw [wait_to_end, if_pos h0, actionEndWith_ok _ h0]
      · intro u hu1 hu2; omega
    · have ht0T : t0 ≠ T := fun he => h0 (he ▸ h3)
      obtain ⟨t, ht1, ht2, ht3, ht4, ht5⟩ := ih (t0 + 1) T (by omega) (by omega) h3
      refine ⟨t, by omega, ht2, ?_, ht4, ?_⟩
      · rw [wait_to_end, if_neg h0]
        exact ht3
      · intro u hu1 hu2
        rcases Nat.eq_or_lt_of_le hu1 with heq | hlt
        · have hv : isEndState (σ t0) = false := by
            cases hb : isEndState (σ t0)
            · rfl
            · exact absurd hb h0
          rw [← heq]
          exact hv
        · exact ht5 u hlt hu2

/-- C5: `wait_to_end` returns exactly at the first state query reporting
`complete`/`error`/`cancel` — never while `pend`/`run` is reported (every
earlier query was non-terminal) — and the terminal bookkeeping
`_action_end_with` ran without raising. -/
theorem wait_to_end_terminal_only (σ : Nat → JState) (fuel T : Nat)
    (hT : isEndState (σ T) = true) (hfuel : T < fuel) :
    ∃ t, t ≤ T ∧ wait_to_end σ fuel 0 = some (t, Except.ok ()) ∧
      isEndState (σ t) = true ∧
      ((List.range t).all (fun u => !isEndState (σ u))) = true := by
  obtain ⟨t, _, ht2, ht3, ht4, ht5⟩ :=
    wait_to_end_finds σ fuel 0 T (Nat.zero_le _) (by omega) hT
  refine ⟨t, ht2, ht3, ht4, ?_⟩
  rw [List.all_eq_true]
  intro u hu
  have := ht5 u (Nat.zero_le _) (List.mem_range.1 hu)
  simp [this]

/-- Witness for C5: a job reporting `run` on queries 0 and 1 and
`complete` from query 2 on. -/
theorem wait_to_end_terminal_only_witness :
    ∃ t, t ≤ 2 ∧
      wait_to_end (fun u => if u < 2 then JState.run else JState.complete) 5 0 =
        some (t, Except.ok ()) ∧
      isEndState ((fun u => if u < 2 then JState.run else JState.complete) t) = true ∧
      ((List.range t).all
        (fun u => !isEndState ((fun u => if u < 2 then JState.run else JState.complete) u)))
        = true :=
  wait_to_end_terminal_only (fun u => if u < 2 then JState.run else JState.complete) 5 2
    (by decide) (by decide)

theorem submit_ok_id (j : JobRec) (obs : JState) (newId : Nat) (pr : JobRec × Bool)
    (h : submit j obs newId = Except.ok pr) : pr.1 = ⟨some newId⟩ := by
  unfold submit at h
  cases hj : j.job_id with
  | none =>
    rw [hj] at h
    cases h
    rfl
  | some o =>
    rw [hj] at h
    by_cases hc : (obs == JState.run || obs == JState.pend) = true
    · rw [if_pos hc] at h
      exact Except.noConfusion h
    · rw [if_neg hc] at h
      cases h
      rfl

/-- C7: a successful `submit()` (with the logging level below CRITICAL)
appends exactly one new line `"<job_id> <script_path>"` to the recovery
log, the job ends up holding the new id, and a subsequent
`retrive_job_id` on a job whose script path resolves to the same
absolute path adopts that id — the most recent matching line — so the
round trip restores the submitted id. -/
theorem submit_then_retrive_roundtrip
    (j : JobRec) (obs : JState) (newId path path2 : Nat) (old2 : Option Nat)
    (abspath : Nat → Nat) (log log2 : List (Nat × Nat)) (j2 : JobRec)
    (hsub : submit_with_log j obs newId path log true = Except.ok (j2, log2))
    (hpath : abspath path2 = abspath path) :
    log2 = log ++ [(newId, path)] ∧
    j2.job_id = some newId ∧
    retrive_job_id abspath log2 path2 old2 = some newId := by
  unfold submit_with_log at hsub
  cases hs : submit j obs newId with
  | error e =>
    rw [hs] at hsub
    cases hsub
  | ok pr =>
    rw [hs] at hsub
    have hj2 : j2 = pr.1 ∧ log2 = record_job_id_to_file log newId path := by
      cases hpr : pr with
      | mk a b =>
        rw [hpr] at hsub
        cases hsub
        exact ⟨rfl, rfl⟩
    obtain ⟨hj2, hlog2⟩ := hj2
    have hid := submit_ok_id j obs newId pr hs
    refine ⟨hlog2, by rw [hj2, hid], ?_⟩
    rw [hlog2]
    unfold retrive_job_id record_job_id_to_file
    rw [List.reverse_append]
    have hfind : ((List.reverse [(newId, path)] ++ log.reverse).find?
        (fun e => abspath e.2 == abspath path2)) = some (newId, path) := by
      have : (fun (e : Nat × Nat) => abspath e.2 == abspath path2) (newId, path) = true := by
        simp [hpath]
      simp [List.find?, this]
    rw [hfind]

/-- Witness for C7: a fresh job submitted to path 3 with id 5 on a log
with one unrelated line, recovered through the identity path resolver. -/
theorem submit_then_retrive_roundtrip_witness :
    [(1, 2), (5, 3)] = [(1, 2)] ++ [(5, 3)] ∧
    (⟨some 5⟩ : JobRec).job_id = some 5 ∧
    retrive_job_id (fun x => x) [(1, 2), (5, 3)] 3 none = some 5 :=
  submit_then_retrive_roundtrip ⟨none⟩ JState.pend 5 3 3 none (fun x => x)
    [(1, 2)] [(1, 2), (5, 3)] ⟨some 5⟩ rfl rfl

theorem runCmdAux_attempts_le (f : Nat → Except Nat Nat) :
    ∀ (rem i : Nat) (lastE : Option Nat), (runCmdAux f rem i lastE).2 ≤ i + rem := by
  intro rem
  induction rem with
  | zero => intro i lastE; exact Nat.le_refl _
  | succ rem ih =>
    intro i lastE
    rw [runCmdAux]
    cases f i with
    | ok v => simp only []; omega
    | error e =>
      simp only []
      have := ih (i + 1) (some e)
      omega

theorem runCmdAux_all_fail (f : Nat → Except Nat Nat) (g : Nat → Nat) :
    ∀ (rem i : Nat) (lastE : Option Nat),
      (∀ k, i ≤ k → k < i + rem → f k = Except.error (g k)) →
      runCmdAux f rem i lastE =
        (Except.error (if rem = 0 then lastE else some (g (i + rem - 1))), i + rem) := by
  intro rem
  induction rem with
  | zero => intro i lastE _; rfl
  | succ rem ih =>
    intro i lastE hfail
    rw [runCmdAux]
    rw [hfail i (Nat.le_refl _) (by omega)]
    show runCmdAux f rem (i + 1) (some (g i)) = _
    rw [ih (i + 1) (some (g i)) (fun k hk1 hk2 => hfail k (by omega) (by omega))]
    cases rem with
    | zero => simp
    | succ rem =>
      simp only [Nat.succ_ne_zero, if_false]
      have h1 : i + 1 + (rem + 1) - 1 = i + (rem + 1 + 1) - 1 := by omega
      have h2 : i + 1 + (rem + 1) = i + (rem + 1 + 1) := by omega
      rw [h1, h2]

theorem runCmdAux_first_success (f : Nat → Except Nat Nat) (g : Nat → Nat) (v : Nat) :
    ∀ (rem i s : Nat) (lastE : Option Nat),
      i ≤ s → s < i + rem →
      (∀ k, i ≤ k → k < s → f k = Except.error (g k)) →
      f s = Except.ok v →
      runCmdAux f rem i lastE = (Except.ok v, s + 1) := by
  intro rem
  induction rem with
  | zero => intro i s lastE h1 h2 _ _; omega
  | succ rem ih =>
    intro i s lastE h1 h2 hfail hok
    rw [runCmdAux]
    rcases Nat.eq_or_lt_of_le h1 with heq | hlt
    · rw [← heq] at hok
      rw [hok]
      show (Except.ok v, i + 1) = (Except.ok v, s + 1)
      rw [heq]
    · rw [hfail i (Nat.le_refl _) hlt]
      show runCmdAux f rem (i + 1) (some (g i)) = _
      exact ih (i + 1) s (some (g i)) hlt (by omega)
        (fun k hk1 hk2 => hfail k (by omega) hk2) hok

/-- C8: `run_command` with `try_time = n` performs at most `n` attempts;
when every attempt up to `n` fails the last captured error is raised
after exactly `n` attempts (no further attempt is made), and when the
first success happens at attempt index `s < n` the result is returned
right there with `s + 1` attempts performed. -/
theorem run_command_retry_semantics (f : Nat → Except Nat Nat) (g : Nat → Nat)
    (v s n : Nat) :
    (run_command f n).2 ≤ n ∧
    ((∀ k, k < n → f k = Except.error (g k)) → 0 < n →
      run_command f n = (Except.error (some (g (n - 1))), n)) ∧
    ((∀ k, k < s → f k = Except.error (g k)) → f s = Except.ok v → s < n →
      run_command f n = (Except.ok v, s + 1)) := by
  refine ⟨?_, ?_, ?_⟩
  · have := runCmdAux_attempts_le f n 0 none
    simpa using this
  · intro hfail hn
    unfold run_command
    rw [runCmdAux_all_fail f g n 0 none (fun k _ hk => hfail k (by omega))]
    rw [if_neg (by omega)]
    simp
  · intro hfail hok hs
    unfold run_command
    exact runCmdAux_first_success f g v n 0 s none (Nat.zero_le _) (by omega)
      (fun k _ hk => hfail k hk) hok

/-- Witness for C8: three always-failing attempts raise the last error
after exactly three attempts; with a failure then a success, the call
returns at the second attempt. -/
theorem run_command_retry_semantics_witness :
    (run_command (fun i => Except.error i) 3).2 ≤ 3 ∧
    run_command (fun i => Except.error i) 3 = (Except.error (some 2), 3) ∧
    run_command (fun i => if i < 1 then Except.error i else Except.ok 42) 3 =
      (Except.ok 42, 2) :=
  ⟨(run_command_retry_semantics (fun i => Except.error i) (fun i => i) 0 0 3).1,
   (run_command_retry_semantics (fun i => Except.error i) (fun i => i) 0 0 3).2.1
     (fun k _ => rfl) (by decide),
   (run_command_retry_semantics (fun i => if i < 1 then Except.error i else Except.ok 42)
       (fun i => i) 42 1 3).2.2
     (fun k hk => by
       have : k = 0 := by omega
       subst this
       rfl)
     rfl (by decide)⟩

/-- C10: `config_job` with a dict `env_settings` whose key list is not
exactly `head, tail` (in either order) raises `KeyError` before any job
is constructed; with exactly those keys the construction succeeds and
the compiled script brackets the command block between the head and tail
values (each with a line separator appended to a copy — the model is
pure, mirroring the source's `deepcopy`, so the caller's mapping is
untouched). -/
theorem config_job_env_key_check
    (commands : List String) (env : List (String × String)) (res wm h t : String) :
    (env.map Prod.fst ≠ ["head", "tail"] → env.map Prod.fst ≠ ["tail", "head"] →
      getEnvStrDict env = Except.error () ∧
      config_job commands env res wm = Except.error ()) ∧
    config_job commands [("head", h), ("tail", t)] res wm =
      Except.ok ⟨String.intercalate linesep
        [res, wm, h ++ linesep, getCommandStrList commands, t ++ linesep]⟩ := by
  constructor
  · intro h1 h2
    have henv : getEnvStrDict env = Except.error () := by
      unfold getEnvStrDict
      rw [if_neg]
      rintro (hc | hc)
      · exact h1 hc
      · exact h2 hc
    refine ⟨henv, ?_⟩
    unfold config_job
    rw [henv]
  · unfold config_job getEnvStrDict
    have hc : (([("head", h), ("tail", t)] : List (String × String)).map Prod.fst =
        ["head", "tail"] ∨
        ([("head", h), ("tail", t)] : List (String × String)).map Prod.fst =
        ["tail", "head"]) := Or.inl rfl
    rw [if_pos hc]
    rfl

/-- Witness for C10: a mapping holding only a `head` key is rejected by
the compiler; with both keys the construction succeeds. -/
theorem config_job_env_key_check_witness :
    (getEnvStrDict [("head", "x")] = Except.error () ∧
      config_job ["c"] [("head", "x")] "r" "w" = Except.error ()) ∧
    config_job ["c"] [("head", "a"), ("tail", "b")] "r" "w" =
      Except.ok ⟨String.intercalate linesep
        ["r", "w", "a" ++ linesep, getCommandStrList ["c"], "b" ++ linesep]⟩ :=
  ⟨(config_job_env_key_check ["c"] [("head", "x")] "r" "w" "a" "b").1
      (by decide) (by decide),
   (config_job_env_key_check ["c"] [("head", "x")] "r" "w" "a" "b").2⟩

theorem unfinishedCount_le : ∀ (L : List Nat) (trs : List Track2),
    unfinishedCount L trs ≤ L.length := by
  intro L
  induction L with
  | nil => intro trs; cases trs <;> simp [unfinishedCount]
  | cons l ls ih =>
    intro trs
    cases trs with
    | nil => simp [unfinishedCount]
    | cons p rest =>
      rcases p with ⟨act, fin⟩
      rw [unfinishedCount]
      have := ih rest
      simp only [List.length_cons]
      split <;> omega

theorem subFor_append_single (tr tr0 j : Nat) (sub : List (Nat × Nat)) :
    subFor tr (sub ++ [(tr0, j)]) =
      subFor tr sub ++ (if tr0 = tr then [j] else []) := by
  unfold subFor
  rw [List.filterMap_append]
  congr 1
  by_cases h : tr0 = tr
  · simp [h]
  · simp [h]

theorem strictIncr_cons_of (a : Nat) (xs : List Nat) (h : strictIncr xs = true)
    (h2 : ∀ x ∈ xs, a < x) : strictIncr (a :: xs) = true := by
  cases xs with
  | nil => rfl
  | cons b rest =>
    rw [strictIncr]
    rw [Bool.and_eq_true]
    exact ⟨decide_eq_true (h2 b (List.mem_cons_self _ _)), h⟩

theorem isRaise_map (e : Except Unit (List Track2 × List (Nat × Nat)))
    (f : List Track2 × List (Nat × Nat) → List Track2 × List (Nat × Nat)) :
    isRaise (e.map f) = isRaise e := by
  cases e <;> rfl

theorem poll2_raise_iff (obs : Nat → Nat → JState) :
    ∀ (i : Nat) (trs : List Track2),
      isRaise (poll2 obs i trs) = trs.any (fun p => decide (1 < p.1.length)) := by
  intro i trs
  induction trs generalizing i with
  | nil => rfl
  | cons p rest ih =>
    rcases p with ⟨act, fin⟩
    cases act with
    | nil =>
      have hred : poll2 obs i (((([] : List Nat), fin)) :: rest) =
          (poll2 obs (i + 1) rest).map (fun r => (([], fin) :: r.1, r.2)) := rfl
      rw [hred, isRaise_map, ih (i + 1)]
      simp
    | cons j tl =>
      cases tl with
      | nil =>
        have hred : poll2 obs i (([j], fin) :: rest) =
            (poll2 obs (i + 1) rest).map (fun r =>
              if termObs (obs i j) then (([], fin ++ [j]) :: r.1, (i, j) :: r.2)
              else (([j], fin) :: r.1, (i, j) :: r.2)) := rfl
        rw [hred, isRaise_map, ih (i + 1)]
        simp
      | cons j2 js =>
        have hred : poll2 obs i ((j :: j2 :: js, fin) :: rest) = Except.error () := rfl
        rw [hred]
        have hlen : decide (1 < (j :: j2 :: js : List Nat).length) = true :=
          decide_eq_true (by simp)
        simp [isRaise, List.any_cons, hlen]

theorem submitFirstIdle_some :
    ∀ (trs : List Track2) (L : List Nat), TInv L trs →
      activeCount trs < unfinishedCount L trs →
      ∃ trs2 tr j, submitFirstIdle L trs = some (trs2, tr, j) ∧
        TInv L trs2 ∧
        trs2.length = trs.length ∧
        activeCount trs2 = activeCount trs + 1 ∧
        unfinishedCount L trs2 = unfinishedCount L trs ∧
        (trs.getD tr ([], [])).1 = [] ∧
        j = (trs.getD tr ([], [])).2.length ∧
        (∀ k, trs2.getD k ([], []) =
          if k = tr then ([j], (trs.getD tr ([], [])).2) else trs.getD k ([], [])) := by
  intro trs
  induction trs with
  | nil =>
    intro L h1 h2
    cases L with
    | nil => simp [activeCount, unfinishedCount] at h2
    | cons l ls => exact h1.elim
  | cons p rest ih =>
    intro L h1 h2
    rcases p with ⟨act, fin⟩
    cases L with
    | nil => exact h1.elim
    | cons l ls =>
      obtain ⟨⟨hfin, hact, hle⟩, htail⟩ := h1
      have ha : activeCount ((act, fin) :: rest) = act.length + activeCount rest := by
        simp [activeCount]
      have hu : unfinishedCount (l :: ls) ((act, fin) :: rest) =
          (if fin.length < l then 1 else 0) + unfinishedCount ls rest := rfl
      rcases hact with hactE | hactS
      · by_cases hfl : fin.length < l
        · have hcond : (decide (act.length = 0) && decide (fin.length < l)) = true := by
            rw [hactE]
            simp [hfl]
          refine ⟨(act ++ [fin.length], fin) :: rest, 0, fin.length, ?_, ?_, ?_, ?_, ?_,
            ?_, ?_, ?_⟩
          · rw [submitFirstIdle, if_pos hcond]
          · refine ⟨⟨hfin, Or.inr ?_, ?_⟩, htail⟩
            · rw [hactE]
              rfl
            · rw [hactE]
              simp
              omega
          · simp
          · have hlen : (act ++ [fin.length]).length = act.length + 1 := by simp
            simp only [activeCount, List.map_cons, List.sum_cons, hlen]
            omega
          · rfl
          · simpa using hactE
          · simp
          · intro k
            cases k with
            | zero => simp [hactE]
            | succ k => simp
        · have h2' : activeCount rest < unfinishedCount ls rest := by
            have hal : act.length = 0 := by rw [hactE]; rfl
            rw [ha, hu, if_neg hfl] at h2
            omega
          obtain ⟨trs2, tr, j, ih1, ih2, ih3, ih4, ih5, ih6, ih7, ih8⟩ :=
            ih ls htail h2'
          have hcond : ¬ ((decide (act.length = 0) && decide (fin.length < l)) = true) := by
            simp [hfl]
          refine ⟨(act, fin) :: trs2, tr + 1, j, ?_, ⟨⟨hfin, Or.inl hactE, hle⟩, ih2⟩,
            by simp [ih3], ?_, ?_, by simpa using ih6, by simpa using ih7, ?_⟩
          · rw [submitFirstIdle, if_neg hcond, ih1]
            rfl
          · have ha2 : activeCount ((act, fin) :: trs2) =
                act.length + activeCount trs2 := by
              simp [activeCount]
            rw [ha, ha2]
            omega
          · rw [hu]
            have hu2 : unfinishedCount (l :: ls) ((act, fin) :: trs2) =
                (if fin.length < l then 1 else 0) + unfinishedCount ls trs2 := rfl
            rw [hu2, ih5]
          · intro k
            cases k with
            | zero => simp
            | succ k =>
              rw [List.getD_cons_succ, List.getD_cons_succ, ih8 k]
              by_cases hk : k = tr
              · rw [if_pos hk, if_pos (by omega)]
              · rw [if_neg hk, if_neg (by omega), List.getD_cons_succ]
      · have hal : act.length = 1 := by rw [hactS]; rfl
        have hfl : fin.length < l := by omega
        have h2' : activeCount rest < unfinishedCount ls rest := by
          rw [ha, hu, if_pos hfl] at h2
          omega
        obtain ⟨trs2, tr, j, ih1, ih2, ih3, ih4, ih5, ih6, ih7, ih8⟩ :=
          ih ls htail h2'
        have hcond : ¬ ((decide (act.length = 0) && decide (fin.length < l)) = true) := by
          rw [hal]
          simp
        refine ⟨(act, fin) :: trs2, tr + 1, j, ?_, ⟨⟨hfin, Or.inr hactS, hle⟩, ih2⟩,
          by simp [ih3], ?_, ?_, by simpa using ih6, by simpa using ih7, ?_⟩
        · rw [submitFirstIdle, if_neg hcond, ih1]
          rfl
        · have ha2 : activeCount ((act, fin) :: trs2) =
              act.length + activeCount trs2 := by
            simp [activeCount]
          rw [ha, ha2]
          omega
        · rw [hu]
          have hu2 : unfinishedCount (l :: ls) ((act, fin) :: trs2) =
              (if fin.length < l then 1 else 0) + unfinishedCount ls trs2 := rfl
          rw [hu2, ih5]
        · intro k
          cases k with
          | zero => simp
          | succ k =>
            rw [List.getD_cons_succ, List.getD_cons_succ, ih8 k]
            by_cases hk : k = tr
            · rw [if_pos hk, if_pos (by omega)]
            · rw [if_neg hk, if_neg (by omega), List.getD_cons_succ]

theorem topUp2_ok (cap : Nat) (L : List Nat) (u : Nat) :
    ∀ (k : Nat) (st : Arr2St),
      TInv L st.tracks →
      (∀ tr, subFor tr st.subTrace =
        List.range (trackCount (st.tracks.getD tr ([], [])))) →
      u ≤ unfinishedCount L st.tracks →
      min cap u - activeCount st.tracks ≤ k →
      ∃ st2, topUp2 cap u L k st = some st2 ∧
        TInv L st2.tracks ∧
        (∀ tr, subFor tr st2.subTrace =
          List.range (trackCount (st2.tracks.getD tr ([], [])))) ∧
        st2.pollTrace = st.pollTrace := by
  intro k
  induction k with
  | zero =>
    intro st h1 h2 h3 h4
    rw [topUp2, if_neg (by omega)]
    exact ⟨st, rfl, h1, h2, rfl⟩
  | succ k ih =>
    intro st h1 h2 h3 h4
    rw [topUp2]
    by_cases hg : activeCount st.tracks < min cap u
    · rw [if_pos hg]
      have hlt : activeCount st.tracks < unfinishedCount L st.tracks := by
        have := Nat.min_le_right cap u
        omega
      obtain ⟨trs2, tr, j, s1, s2, s3, s4, s5, s6, s7, s8⟩ :=
        submitFirstIdle_some st.tracks L h1 hlt
      rw [s1]
      have hsub : ∀ tr2, subFor tr2 (st.subTrace ++ [(tr, j)]) =
          List.range (trackCount (trs2.getD tr2 ([], []))) := by
        intro tr2
        rw [subFor_append_single, s8 tr2]
        by_cases htr : tr2 = tr
        · rw [if_pos htr.symm, if_pos htr]
          have hold := h2 tr2
          rw [htr] at hold ⊢
          rw [hold]
          have hcount : trackCount (st.tracks.getD tr ([], [])) =
              (st.tracks.getD tr ([], [])).2.length := by
            unfold trackCount
            rw [s6]
            rfl
          have hcount2 : trackCount ([j], (st.tracks.getD tr ([], [])).2) =
              (st.tracks.getD tr ([], [])).2.length + 1 := rfl
          rw [hcount, hcount2, s7, ← List.range_succ]
        · rw [if_neg (fun he => htr he.symm), if_neg htr]
          rw [List.append_nil]
          exact h2 tr2
      have hu2 : u ≤ unfinishedCount L trs2 := by rw [s5]; exact h3
      have hk2 : min cap u - activeCount trs2 ≤ k := by rw [s4]; omega
      obtain ⟨st2, e1, e2, e3, e4⟩ :=
        ih { st with tracks := trs2, subTrace := st.subTrace ++ [(tr, j)] } s2 hsub hu2 hk2
      exact ⟨st2, e1, e2, e3, e4⟩
    · rw [if_neg hg]
      exact ⟨st, rfl, h1, h2, rfl⟩

theorem poll2_ok (obs : Nat → Nat → JState) :
    ∀ (trs : List Track2) (L : List Nat) (i : Nat), TInv L trs →
      ∃ trs2 trace, poll2 obs i trs = Except.ok (trs2, trace) ∧
        TInv L trs2 ∧
        (∀ k, trackCount (trs2.getD k ([], [])) = trackCount (trs.getD k ([], []))) ∧
        strictIncr (trace.map Prod.fst) = true ∧
        (∀ q ∈ trace, i ≤ q.1) := by
  intro trs
  induction trs with
  | nil =>
    intro L i h1
    cases L with
    | nil =>
      exact ⟨[], [], rfl, trivial, fun k => rfl, rfl, fun q hq => absurd hq (by simp)⟩
    | cons l ls => exact h1.elim
  | cons p rest ih =>
    intro L i h1
    rcases p with ⟨act, fin⟩
    cases L with
    | nil => exact h1.elim
    | cons l ls =>
      obtain ⟨⟨hfin, hact, hle⟩, htail⟩ := h1
      obtain ⟨trs2, trace, e1, e2, e3, e4, e5⟩ := ih ls (i + 1) htail
      have hmono : ∀ x ∈ trace.map Prod.fst, i < x := by
        intro x hx
        rcases List.mem_map.1 hx with ⟨q, hq, rfl⟩
        exact e5 q hq
      rcases hact with hactE | hactS
      · subst hactE
        refine ⟨([], fin) :: trs2, trace, ?_,
          ⟨⟨hfin, Or.inl rfl, hle⟩, e2⟩, ?_, e4, ?_⟩
        · have hred : poll2 obs i (((([] : List Nat), fin)) :: rest) =
              (poll2 obs (i + 1) rest).map (fun r => (([], fin) :: r.1, r.2)) := rfl
          rw [hred, e1]
          rfl
        · intro k
          cases k with
          | zero => rfl
          | succ k => rw [List.getD_cons_succ, List.getD_cons_succ]; exact e3 k
        · intro q hq
          exact Nat.le_of_succ_le (e5 q hq)
      · subst hactS
        have hred : poll2 obs i (([fin.length], fin) :: rest) =
            (poll2 obs (i + 1) rest).map (fun r =>
              if termObs (obs i fin.length) then
                (([], fin ++ [fin.length]) :: r.1, (i, fin.length) :: r.2)
              else (([fin.length], fin) :: r.1, (i, fin.length) :: r.2)) := rfl
        by_cases hterm : termObs (obs i fin.length) = true
        · refine ⟨([], fin ++ [fin.length]) :: trs2, (i, fin.length) :: trace, ?_,
            ?_, ?_, ?_, ?_⟩
          · rw [hred, e1]
            simp [hterm, Except.map]
          · refine ⟨⟨?_, Or.inl rfl, ?_⟩, e2⟩
            · have hlen2 : (fin ++ [fin.length]).length = fin.length + 1 := by simp
              rw [hlen2, List.range_succ]
              conv_lhs => rw [hfin]
              simp
            · simp only [List.length_append, List.length_singleton, List.length_nil] at hle ⊢
              omega
          · intro k
            cases k with
            | zero =>
              rw [List.getD_cons_zero, List.getD_cons_zero]
              unfold trackCount
              simp
            | succ k => rw [List.getD_cons_succ, List.getD_cons_succ]; exact e3 k
          · exact strictIncr_cons_of _ _ e4 hmono
          · intro q hq
            rcases List.mem_cons.1 hq with rfl | hq2
            · exact Nat.le_refl _
            · exact Nat.le_of_succ_le (e5 q hq2)
        · refine ⟨([fin.length], fin) :: trs2, (i, fin.length) :: trace, ?_,
            ⟨⟨hfin, Or.inr rfl, hle⟩, e2⟩, ?_, ?_, ?_⟩
          · rw [hred, e1]
            simp [hterm, Except.map]
          · intro k
            cases k with
            | zero => rfl
            | succ k => rw [List.getD_cons_succ, List.getD_cons_succ]; exact e3 k
          · exact strictIncr_cons_of _ _ e4 hmono
          · intro q hq
            rcases List.mem_cons.1 hq with rfl | hq2
            · exact Nat.le_refl _
            · exact Nat.le_of_succ_le (e5 q hq2)

theorem sweep2_ok (σ2 : Nat → Nat → Nat → JState) (cap : Nat) (L : List Nat) (t : Nat)
    (st : Arr2St) (h : Inv2 L st) :
    ∃ st2, sweep2 σ2 cap L t st = Sweep2Res.ok st2 ∧ Inv2 L st2 := by
  obtain ⟨h1, h2, h3⟩ := h
  have hfuel : min cap (unfinishedCount L st.tracks) - activeCount st.tracks ≤
      L.length := by
    have ha := unfinishedCount_le L st.tracks
    have hb := Nat.min_le_right cap (unfinishedCount L st.tracks)
    omega
  obtain ⟨st1, t1, t2, t3, t4⟩ := topUp2_ok cap L (unfinishedCount L st.tracks)
    L.length st h1 h2 (Nat.le_refl _) hfuel
  obtain ⟨trs2, trace, p1, p2, p3, p4, p5⟩ :=
    poll2_ok (fun tr j => σ2 tr j t) st1.tracks L 0 t2
  have e1 : sweep2 σ2 cap L t st =
      match poll2 (fun tr j => σ2 tr j t) 0 st1.tracks with
      | Except.error _ => Sweep2Res.raised
      | Except.ok r =>
        Sweep2Res.ok { st1 with tracks := r.1, pollTrace := st1.pollTrace ++ [r.2] } := by
    unfold sweep2
    rw [t1]
  have e2 : sweep2 σ2 cap L t st =
      Sweep2Res.ok { st1 with tracks := trs2, pollTrace := st1.pollTrace ++ [trace] } := by
    rw [e1, p1]
  refine ⟨{ st1 with tracks := trs2, pollTrace := st1.pollTrace ++ [trace] }, e2,
    p2, ?_, ?_⟩
  · intro tr
    show subFor tr st1.subTrace = List.range (trackCount (trs2.getD tr ([], [])))
    rw [p3 tr]
    exact t3 tr
  · intro tl htl
    rcases List.mem_append.1 htl with hmem | hmem
    · rw [t4] at hmem
      exact h3 tl hmem
    · rcases List.mem_singleton.1 hmem with rfl
      exact p4

theorem wait2dLoop_ok (σ2 : Nat → Nat → Nat → JState) (cap : Nat) (L : List Nat)
    (total : Nat) : ∀ (fuel t : Nat) (st : Arr2St), Inv2 L st →
    ∃ st2, wait2dLoop σ2 cap L total fuel t st = Sweep2Res.ok st2 ∧ Inv2 L st2 := by
  intro fuel
  induction fuel with
  | zero => intro t st h; exact ⟨st, rfl, h⟩
  | succ fuel ih =>
    intro t st h
    rw [wait2dLoop]
    by_cases hg : finishedCount st.tracks < total
    · rw [if_pos hg]
      obtain ⟨st1, e1, h1⟩ := sweep2_ok σ2 cap L t st h
      rw [e1]
      exact ih (t + 1) st1 h1
    · rw [if_neg hg]
      exact ⟨st, rfl, h⟩

theorem TInv_init : ∀ (L : List Nat),
    TInv L (L.map fun _ => (([] : List Nat), ([] : List Nat))) := by
  intro L
  induction L with
  | nil => trivial
  | cons l ls ih => exact ⟨⟨rfl, Or.inl rfl, by simp⟩, ih⟩

theorem getD_map_init : ∀ (L : List Nat) (k : Nat),
    (L.map fun _ => (([] : List Nat), ([] : List Nat))).getD k ([], []) = ([], []) := by
  intro L
  induction L with
  | nil => intro k; rfl
  | cons l ls ih =>
    intro k
    cases k with
    | zero => rfl
    | succ k =>
      rw [List.map_cons, List.getD_cons_succ]
      exact ih k

theorem Inv2_init (L : List Nat) : Inv2 L ⟨L.map fun _ => ([], []), [], []⟩ := by
  refine ⟨TInv_init L, ?_, ?_⟩
  · intro tr
    show subFor tr [] = _
    rw [getD_map_init]
    rfl
  · intro tl htl
    exact absurd htl (by simp)

theorem TInv_getD_facts : ∀ (trs : List Track2) (L : List Nat), TInv L trs → ∀ k,
    (trs.getD k ([], [])).1.length ≤ 1 ∧
    (trs.getD k ([], [])).2 = List.range (trs.getD k ([], [])).2.length ∧
    ((trs.getD k ([], [])).1 = [] ∨
      (trs.getD k ([], [])).1 = [(trs.getD k ([], [])).2.length]) := by
  intro trs
  induction trs with
  | nil =>
    intro L h k
    exact ⟨by simp, rfl, Or.inl rfl⟩
  | cons p rest ih =>
    intro L h k
    rcases p with ⟨act, fin⟩
    cases L with
    | nil => exact h.elim
    | cons l ls =>
      obtain ⟨⟨hfin, hact, _⟩, htail⟩ := h
      cases k with
      | zero =>
        rw [List.getD_cons_zero]
        refine ⟨?_, hfin, hact⟩
        rcases hact with hactE | hactS
        · rw [hactE]; exact Nat.zero_le _
        · rw [hactS]; exact Nat.le_refl _
      | succ k =>
        rw [List.getD_cons_succ]
        exact ih ls htail k

theorem TInv_length : ∀ (trs : List Track2) (L : List Nat), TInv L trs →
    trs.length = L.length := by
  intro trs
  induction trs with
  | nil =>
    intro L h
    cases L with
    | nil => rfl
    | cons l ls => exact h.elim
  | cons p rest ih =>
    intro L h
    rcases p with ⟨act, fin⟩
    cases L with
    | nil => exact h.elim
    | cons l ls =>
      rw [List.length_cons, List.length_cons, ih ls h.2]

/-- C2: every run of `wait_to_2d_array_end` (any fuel, any schedule)
reaches a state without raising or hanging, in which every track holds at
most one active job (the active slot is empty or exactly the next job
after the finished prefix), the finished list of each track is the
initial in-order segment `[0, ..., m-1]` of that track, and the
per-track submission trace is exactly `[0, ..., m-1]` plus the active
job — so job `k+1` of a track is only ever submitted in a state where
job `k` has already been observed terminal and moved to the track's
finished list.  Moreover the defensive check of the poll phase raises
exactly when some track is found with more than one simultaneously
active job. -/
theorem wait_to_2d_array_end_track_sequencing
    (σ2 : Nat → Nat → Nat → JState) (L : List Nat) (array_size fuel : Nat) :
    (∃ st, wait_to_2d_array_end σ2 L array_size fuel = Sweep2Res.ok st ∧
      st.tracks.length = L.length ∧
      (∀ tr, (st.tracks.getD tr ([], [])).1.length ≤ 1 ∧
        (st.tracks.getD tr ([], [])).2 =
          List.range (st.tracks.getD tr ([], [])).2.length ∧
        ((st.tracks.getD tr ([], [])).1 = [] ∨
          (st.tracks.getD tr ([], [])).1 = [(st.tracks.getD tr ([], [])).2.length]) ∧
        subFor tr st.subTrace =
          List.range (trackCount (st.tracks.getD tr ([], []))))) ∧
    (∀ (obs : Nat → Nat → JState) (i : Nat) (trs : List Track2),
      isRaise (poll2 obs i trs) = trs.any (fun p => decide (1 < p.1.length))) := by
  constructor
  · obtain ⟨st, e1, e2⟩ := wait2dLoop_ok σ2 (if array_size = 0 then L.length else array_size)
      L L.sum fuel 0 ⟨L.map fun _ => ([], []), [], []⟩ (Inv2_init L)
    refine ⟨st, e1, TInv_length st.tracks L e2.1, ?_⟩
    intro tr
    obtain ⟨f1, f2, f3⟩ := TInv_getD_facts st.tracks L e2.1 tr
    exact ⟨f1, f2, f3, e2.2.1 tr⟩
  · intro obs i trs
    exact poll2_raise_iff obs i trs

/-- Counterexample for C9: with both jobs reporting `pend`, the single
sweep's active list after top-up is `[0, 1]` (input order), yet the
states are queried in the order `[1, 0]` — `for j in range(len-1, -1, -1)`
polls the active jobs in reverse list order, not input order. -/
theorem poll_order_counterexample :
    (wait_to_array_end (fun _ _ => JState.pend) 2 2 1).2.activeSnaps = [[0, 1]] ∧
    (wait_to_array_end (fun _ _ => JState.pend) 2 2 1).2.pollTrace = [[1, 0]] ∧
    (wait_to_array_end (fun _ _ => JState.pend) 2 2 1).2.pollTrace ≠ [[0, 1]] := by
  decide

/-- C9 (amended): within one sweep, `wait_to_array_end` and
`wait_to_array_end_plus` poll the active jobs in reverse list order
(every sweep's query trace is the reverse of that sweep's post-top-up
active list), while `wait_to_2d_array_end` polls the tracks in input
track order (each sweep's query trace visits strictly increasing track
indices). -/
theorem poll_order_within_sweeps
    (σ : Nat → Nat → JState) (presub : Nat → Bool)
    (σ2 : Nat → Nat → Nat → JState) (L : List Nat)
    (n array_size fuel fuel2 fuel3 size2 : Nat) :
    (wait_to_array_end σ n array_size fuel).2.pollTrace =
      (wait_to_array_end σ n array_size fuel).2.activeSnaps.map List.reverse ∧
    (wait_to_array_end_plus σ presub n array_size fuel2).2.pollTrace =
      (wait_to_array_end_plus σ presub n array_size fuel2).2.activeSnaps.map
        List.reverse ∧
    (∃ st, wait_to_2d_array_end σ2 L size2 fuel3 = Sweep2Res.ok st ∧
      ∀ tl ∈ st.pollTrace, strictIncr (tl.map Prod.fst) = true) := by
  refine ⟨?_, ?_, ?_⟩
  · have hinv : ArrInv (if array_size = 0 then n else array_size) (List.range n) []
        (wait_to_array_end σ n array_size fuel).2 := by
      unfold wait_to_array_end
      refine waitLoop_inv _ _ _ σ n fuel 0 _ ?_
      have := ArrInv_init (if array_size = 0 then n else array_size) (List.range n)
        ([] : List Nat)
      simpa using this
    exact hinv.2.2.2.2.2.1
  · have hinv : ArrInv (if array_size = 0 then n else array_size)
        ((List.range n).filter (fun j => !plusSeeded σ presub j))
        ((List.range n).filter (plusSeeded σ presub))
        (wait_to_array_end_plus σ presub n array_size fuel2).2 := by
      unfold wait_to_array_end_plus
      exact waitLoop_inv _ _ _ σ n fuel2 1 _ (ArrInv_init _ _ _)
    exact hinv.2.2.2.2.2.1
  · obtain ⟨st, e1, e2⟩ := wait2dLoop_ok σ2 (if size2 = 0 then L.length else size2)
      L L.sum fuel3 0 ⟨L.map fun _ => ([], []), [], []⟩ (Inv2_init L)
    exact ⟨st, e1, e2.2.2⟩

end EnzyHTP
